import Mathlib

/-!
# Verification of the cretan_vst signal-processing core

Shallow embedding of the two signal-processing components of the repository
(`Source/AudioSynthesiserDemo.h` and `Source/CustomWavDisplay.cpp`):

* the `FFTAnalyzer` sample-buffering / spectrum-curve pipeline
  (`pushNextSample`, `drawNextFrameOfSpectrum`, `timerCallback`);
* the `SineWaveVoice` oscillator (`startNote`, `stopNote`, `renderNextBlock`);
* the `CustomAudioDisplay` audio-device callback.

Machine floating-point arithmetic is modelled over `ℝ`; the JUCE framework
helpers the code calls (`jlimit`, `jmap`, `Decibels::gainToDecibels`,
`MidiMessage::getMidiNoteInHertz`) are embedded following their documented
definitions in the framework headers.  The FFT proper and the Hann window
table are framework black boxes: they enter the model as parameters
(`w` for the windowing table, `F` for the magnitude-only transform), since no
claim depends on their numerical content.
-/

/-! ## Constants of `FFTAnalyzer` (the `enum` at lines 128–133) -/

def fftOrder : ℕ := 11

def fftSize : ℕ := 1 <<< fftOrder

def scopeSize : ℕ := 512

/-- Constant `mindB` from `drawNextFrameOfSpectrum` (line 42). -/
def mindB : ℝ := -100

/-- Constant `maxdB` from `drawNextFrameOfSpectrum` (line 43). -/
def maxdB : ℝ := 0

/-! ## JUCE framework helpers used by the repository code -/

/-- JUCE `jlimit (lowerLimit, upperLimit, value)`:
`value < lo ? lo : (hi < value ? hi : value)`. -/
def jlimit {α : Type} [LinearOrder α] (lo hi v : α) : α :=
  if v < lo then lo else if hi < v then hi else v

/-- JUCE `jmap (sourceValue, sourceRangeMin, sourceRangeMax, targetRangeMin,
targetRangeMax)`: `t0 + ((t1 - t0) * (v - s0)) / (s1 - s0)`. -/
noncomputable def jmap (v s0 s1 t0 t1 : ℝ) : ℝ :=
  t0 + ((t1 - t0) * (v - s0)) / (s1 - s0)

/-- JUCE `Decibels::gainToDecibels (gain)` with the default
`minusInfinityDb = -100`: `gain > 0 ? max (-100, 20 * log10 gain) : -100`. -/
noncomputable def gainToDecibels (gain : ℝ) : ℝ :=
  if 0 < gain then max (-100) (Real.logb 10 gain * 20) else -100

/-- The C cast `(int) x` applied to a floating value: truncation toward zero. -/
noncomputable def cppTruncToInt (x : ℝ) : ℤ :=
  if 0 ≤ x then ⌊x⌋ else -⌊-x⌋

/-! ## The `FFTAnalyzer` state (fields at lines 138–142)

Fixed-size C arrays are modelled as total functions on `ℕ`; only the indices
below the array length are ever read by the embedded operations. -/

structure FFTAnalyzer where
  fifo : ℕ → ℝ
  fftData : ℕ → ℝ
  scopeData : ℕ → ℝ
  fifoIndex : ℕ
  nextFFTBlockReady : Bool

/-- Model of `FFTAnalyzer::pushNextSample` (lines 18–31).  When the cursor has reached
`fftSize`: if no block is pending, `zeromem` + `memcpy` copy the fifo into the
first half of `fftData` (zeroing the second half) and set the ready flag; in
both cases the cursor resets to 0.  Then the sample is written at the cursor
and the cursor advances. -/
def pushNextSample (a : FFTAnalyzer) (sample : ℝ) : FFTAnalyzer :=
  let a1 : FFTAnalyzer :=
    if a.fifoIndex = fftSize then
      if a.nextFFTBlockReady then
        { a with fifoIndex := 0 }
      else
        { a with fftData := fun j => if j < fftSize then a.fifo j else 0,
                 nextFFTBlockReady := true,
                 fifoIndex := 0 }
    else a
  { a1 with fifo := Function.update a1.fifo a1.fifoIndex sample,
            fifoIndex := a1.fifoIndex + 1 }

/-- Ingesting a list of samples: `pushNextSample` once per element, in order
(as `SynthAudioSource::getNextAudioBlock` does at lines 308–310). -/
def pushMany (a : FFTAnalyzer) (l : List ℝ) : FFTAnalyzer :=
  l.foldl pushNextSample a

/-- The skew computed at line 48:
`1.0f - std::exp (std::log (1.0f - i / scopeSize) * 0.2f)`. -/
noncomputable def skewedProportionX (i : ℕ) : ℝ :=
  1 - Real.exp (Real.log (1 - (i : ℝ) / (scopeSize : ℝ)) * 0.2)

/-- The source index computed at line 49:
`jlimit (0, fftSize / 2, (int) (skewedProportionX * fftSize * 0.5f))`. -/
noncomputable def fftDataIndex (i : ℕ) : ℤ :=
  jlimit 0 ((fftSize : ℤ) / 2)
    (cppTruncToInt (skewedProportionX i * (fftSize : ℝ) * 0.5))

/-- The index formula as the spec words it:
`round (N/2 × (1 − exp (ln (1 − i/M) × 0.2)))` clamped to `[0, N/2]` —
rounding to the nearest integer, to be compared with `fftDataIndex`. -/
noncomputable def fftDataIndexSpec (i : ℕ) : ℤ :=
  jlimit 0 ((fftSize : ℤ) / 2)
    (round ((fftSize : ℝ) / 2 * skewedProportionX i))

/-- The buffer after `window.multiplyWithWindowingTable (fftData, fftSize)`
(line 36): the first `fftSize` entries are multiplied by the framework's
window table `w`, the rest are untouched. -/
noncomputable def windowedBuffer (w : ℕ → ℝ) (a : FFTAnalyzer) : ℕ → ℝ :=
  fun j => if j < fftSize then a.fftData j * w j else a.fftData j

/-- Model of `FFTAnalyzer::drawNextFrameOfSpectrum` (lines 33–58).  `w` is the
framework's Hann window table and `F` the framework's
`performFrequencyOnlyForwardTransform`, which rewrites the buffer in place;
both are opaque parameters of the model.  Each of the `scopeSize` curve
points is the dB-converted, clamped, `[0,1]`-remapped magnitude at the
skewed source index. -/
noncomputable def drawNextFrameOfSpectrum (w : ℕ → ℝ) (F : (ℕ → ℝ) → ℕ → ℝ)
    (a : FFTAnalyzer) : FFTAnalyzer :=
  let transformed := F (windowedBuffer w a)
  { a with
    fftData := transformed,
    scopeData := fun i =>
      if i < scopeSize then
        jmap (jlimit mindB maxdB
                (gainToDecibels (transformed (fftDataIndex i).toNat)
                  - gainToDecibels (fftSize : ℝ)))
          mindB maxdB 0 1
      else a.scopeData i }

/-- Model of `FFTAnalyzer::timerCallback` (lines 117–125): if a block is pending,
compute the frame and clear the flag (the `repaint` call is GUI-only and has
no state in the model). -/
noncomputable def timerCallback (w : ℕ → ℝ) (F : (ℕ → ℝ) → ℕ → ℝ)
    (a : FFTAnalyzer) : FFTAnalyzer :=
  if a.nextFFTBlockReady then
    { drawNextFrameOfSpectrum w F a with nextFFTBlockReady := false }
  else a

/-! ## The `SineWaveVoice` oscillator (lines 157–240)

The private fields `currentAngle`, `angleDelta`, `level`, `tailOff` are the
`double` members at line 239; `active` models the framework-side
currently-playing flag that `clearCurrentNote()` clears.  JUCE's
`approximatelyEqual (x, 0.0)` guard is modelled as exact equality with 0:
every reachable value of the compared fields is either exactly `0.0` (set by
the code itself) or far outside the machine-epsilon tolerance. -/

structure SineWaveVoice where
  currentAngle : ℝ
  angleDelta : ℝ
  level : ℝ
  tailOff : ℝ
  active : Bool

/-- JUCE `MidiMessage::getMidiNoteInHertz (noteNumber)` with the default
`frequencyOfA = 440`: `440 * 2 ^ ((noteNumber - 69) / 12.0)` — the standard
12-tone-equal-temperament MIDI mapping, as the framework header defines it. -/
noncomputable def getMidiNoteInHertz (noteNumber : ℤ) : ℝ :=
  440 * (2 : ℝ) ^ ((((noteNumber : ℝ)) - 69) / 12)

/-- Model of `SineWaveVoice::startNote` (lines 164–175).  `sampleRate` is what the
framework's `getSampleRate()` returns; the sound pointer and pitch-wheel
argument are unused by the code. -/
noncomputable def startNote (v : SineWaveVoice) (midiNoteNumber : ℤ)
    (velocity : ℝ) (sampleRate : ℝ) : SineWaveVoice :=
  let cyclesPerSecond := getMidiNoteInHertz midiNoteNumber
  let cyclesPerSample := cyclesPerSecond / sampleRate
  { v with currentAngle := 0,
           level := velocity * 0.15,
           tailOff := 0,
           angleDelta := cyclesPerSample * (2 * Real.pi),
           active := true }

/-- Model of `SineWaveVoice::stopNote` (lines 177–189).  The velocity argument is
unused by the code.  `clearCurrentNote()` is modelled by `active := false`. -/
noncomputable def stopNote (v : SineWaveVoice) (velocity : ℝ)
    (allowTailOff : Bool) : SineWaveVoice :=
  if allowTailOff then
    if v.tailOff = 0 then { v with tailOff := 1 } else v
  else
    { v with active := false, angleDelta := 0 }

/-- The per-sample state advance inside the tail-off loop (lines 207–210):
`currentAngle += angleDelta; tailOff *= 0.99`. -/
noncomputable def tailStep (v : SineWaveVoice) : SineWaveVoice :=
  { v with currentAngle := v.currentAngle + v.angleDelta,
           tailOff := v.tailOff * 0.99 }

/-- The tail-off rendering loop of `renderNextBlock` (lines 198–219): emit
`sin angle * level * tailOff`, advance the angle, multiply the tail-off by
0.99, and stop early (deactivating and zeroing the increment) once the
tail-off falls to 0.005 or below. -/
noncomputable def renderTailLoop : SineWaveVoice → ℕ → SineWaveVoice × List ℝ
  | v, 0 => (v, [])
  | v, n + 1 =>
      let s : ℝ := Real.sin v.currentAngle * v.level * v.tailOff
      let v1 : SineWaveVoice := tailStep v
      if v1.tailOff ≤ 0.005 then
        ({ v1 with active := false, angleDelta := 0 }, [s])
      else
        let r := renderTailLoop v1 n
        (r.1, s :: r.2)

/-- The sustain rendering loop of `renderNextBlock` (lines 220–232): emit
`sin angle * level` and advance the angle, once per sample. -/
noncomputable def renderSustainLoop : SineWaveVoice → ℕ → SineWaveVoice × List ℝ
  | v, 0 => (v, [])
  | v, n + 1 =>
      let s : ℝ := Real.sin v.currentAngle * v.level
      let v1 : SineWaveVoice :=
        { v with currentAngle := v.currentAngle + v.angleDelta }
      let r := renderSustainLoop v1 n
      (r.1, s :: r.2)

/-- Model of `SineWaveVoice::renderNextBlock` (lines 194–234).  The returned list
holds the values the loop adds (identically to every channel) at consecutive
sample positions starting at `startSample`; an inactive voice
(`angleDelta = 0`) adds nothing. -/
noncomputable def renderNextBlock (v : SineWaveVoice) (numSamples : ℕ) :
    SineWaveVoice × List ℝ :=
  if v.angleDelta = 0 then (v, [])
  else if 0 < v.tailOff then renderTailLoop v numSamples
  else renderSustainLoop v numSamples

/-! ## `CustomAudioDisplay::audioDeviceIOCallbackWithContext`
(`Source/CustomWavDisplay.cpp`, lines 22–47)

Channel arrays are lists of optional sample streams (`none` models a null
channel pointer).  The callback pushes one mixed-and-scaled value per sample
index to the scrolling display (`pushSample`) and then `zeromem`s every
non-null output channel over the whole sample count. -/

structure CallbackResult where
  pushed : List ℝ
  output : List (Option (ℕ → ℝ))

/-- The inner mixing loop (lines 33–37): starting from `0.0f`, add the
sample at index `i` of every non-null input channel. -/
def mixSample (input : List (Option (ℕ → ℝ))) (i : ℕ) : ℝ :=
  input.foldl (fun acc ch => match ch with | none => acc | some c => acc + c i) 0

/-- The whole callback (lines 22–47): per sample index, mix the non-null
input channels, scale by `gain`, push to the display; then zero the first
`numSamples` entries of every non-null output channel. -/
def audioDeviceIOCallbackWithContext (gain : ℝ)
    (input output : List (Option (ℕ → ℝ))) (numSamples : ℕ) : CallbackResult :=
  { pushed := (List.range numSamples).map fun i => mixSample input i * gain,
    output := output.map fun ch =>
      ch.map fun f => fun j => if j < numSamples then 0 else f j }

/-! ## Helper lemmas -/

theorem fftSize_eq : fftSize = 2048 := by decide

theorem jlimit_bounds {α : Type} [LinearOrder α] (lo hi v : α) (h : lo ≤ hi) :
    lo ≤ jlimit lo hi v ∧ jlimit lo hi v ≤ hi := by
  unfold jlimit
  split_ifs with h1 h2
  · exact ⟨le_refl _, h⟩
  · exact ⟨h, le_refl _⟩
  · exact ⟨le_of_not_lt h1, le_of_not_lt h2⟩

/-- Pushing a sample while the cursor is strictly below capacity only writes
the fifo and advances the cursor. -/
theorem pushNextSample_below (a : FFTAnalyzer) (x : ℝ)
    (h : a.fifoIndex ≠ fftSize) :
    pushNextSample a x =
      { a with fifo := Function.update a.fifo a.fifoIndex x,
               fifoIndex := a.fifoIndex + 1 } := by
  simp [pushNextSample, h]

/-- Ingesting a list that keeps the cursor at or below capacity changes only
the fifo and the cursor. -/
theorem pushMany_below_capacity (l : List ℝ) : ∀ a : FFTAnalyzer,
    a.fifoIndex + l.length ≤ fftSize →
    (pushMany a l).nextFFTBlockReady = a.nextFFTBlockReady
    ∧ (pushMany a l).scopeData = a.scopeData
    ∧ (pushMany a l).fftData = a.fftData
    ∧ (pushMany a l).fifoIndex = a.fifoIndex + l.length := by
  induction l with
  | nil => intro a _; simp [pushMany]
  | cons x xs ih =>
    intro a h
    have hlen : a.fifoIndex + (xs.length + 1) ≤ fftSize := by
      simpa [List.length_cons] using h
    have hne : a.fifoIndex ≠ fftSize := by omega
    have hstep : pushMany a (x :: xs) =
        pushMany { a with fifo := Function.update a.fifo a.fifoIndex x,
                          fifoIndex := a.fifoIndex + 1 } xs := by
      simp [pushMany, pushNextSample_below a x hne]
    obtain ⟨h1, h2, h3, h4⟩ :=
      ih { a with fifo := Function.update a.fifo a.fifoIndex x,
                  fifoIndex := a.fifoIndex + 1 } (by simpa using by omega)
    rw [hstep]
    refine ⟨h1, h2, h3, ?_⟩
    rw [h4]
    simp [List.length_cons]
    omega

/-! ## Claim theorems -/

/-- C5: single-pending-block handoff.  `pushNextSample` sets the ready flag
exactly when the buffer fills while the flag is clear and never clears it;
the working buffer (`fftData`) is copied into only in that same case; the
cursor resets (and the incoming sample is written at position 0) whenever the
buffer fills, pending block or not; and only `timerCallback` — frame
consumption — leaves the flag clear. -/
theorem analyzer_single_pending_handoff (w : ℕ → ℝ) (F : (ℕ → ℝ) → ℕ → ℝ)
    (a : FFTAnalyzer) (s : ℝ) :
    (pushNextSample a s).nextFFTBlockReady
        = (a.nextFFTBlockReady || decide (a.fifoIndex = fftSize))
    ∧ (pushNextSample a s).fftData
        = (if a.fifoIndex = fftSize ∧ a.nextFFTBlockReady = false
            then fun j => if j < fftSize then a.fifo j else 0
            else a.fftData)
    ∧ (pushNextSample a s).fifoIndex
        = (if a.fifoIndex = fftSize then 1 else a.fifoIndex + 1)
    ∧ (pushNextSample a s).fifo
        = Function.update a.fifo
            (if a.fifoIndex = fftSize then 0 else a.fifoIndex) s
    ∧ (timerCallback w F a).nextFFTBlockReady = false := by
  by_cases h : a.fifoIndex = fftSize <;>
    cases hr : a.nextFFTBlockReady <;>
      simp [pushNextSample, timerCallback, h, hr]

/-- C7: `timerCallback` is idempotent — the first call clears the pending
flag, so the second call is a no-op on the whole analyzer state. -/
theorem timerCallback_idempotent (w : ℕ → ℝ) (F : (ℕ → ℝ) → ℕ → ℝ)
    (a : FFTAnalyzer) :
    timerCallback w F (timerCallback w F a) = timerCallback w F a := by
  by_cases h : a.nextFFTBlockReady <;> simp [timerCallback, h]

/-- C8: from a state with cursor 0 and no pending block, ingesting fewer
than `fftSize` samples leaves the ready flag unset and the output curve
untouched. -/
theorem ingest_below_fftSize_no_pending (a : FFTAnalyzer) (l : List ℝ)
    (h0 : a.fifoIndex = 0) (hr : a.nextFFTBlockReady = false)
    (hl : l.length < fftSize) :
    (pushMany a l).nextFFTBlockReady = false
    ∧ (pushMany a l).scopeData = a.scopeData := by
  obtain ⟨h1, h2, _, _⟩ := pushMany_below_capacity l a (by omega)
  exact ⟨h1.trans hr, h2⟩

theorem ingest_below_fftSize_no_pending_witness :
    (pushMany ⟨fun _ => 0, fun _ => 0, fun _ => 0, 0, false⟩
        [1, 2]).nextFFTBlockReady = false
    ∧ (pushMany ⟨fun _ => 0, fun _ => 0, fun _ => 0, 0, false⟩
        [1, 2]).scopeData = fun _ => 0 :=
  ingest_below_fftSize_no_pending _ _ rfl rfl (by decide)

/-- C9: lazy publication.  From cursor 0 with the flag clear, exactly
`fftSize` ingest calls leave the flag unset and perform no copy into the
working buffer; the `fftSize + 1`-th call copies the fifo (zero-padding the
upper half), sets the flag, and writes its own sample at cursor position 0. -/
theorem ingest_publication_lazy (a : FFTAnalyzer) (l : List ℝ) (s : ℝ)
    (h0 : a.fifoIndex = 0) (hr : a.nextFFTBlockReady = false)
    (hl : l.length = fftSize) :
    (pushMany a l).nextFFTBlockReady = false
    ∧ (pushMany a l).fftData = a.fftData
    ∧ (pushMany a l).fifoIndex = fftSize
    ∧ (pushNextSample (pushMany a l) s).nextFFTBlockReady = true
    ∧ (pushNextSample (pushMany a l) s).fftData
        = (fun j => if j < fftSize then (pushMany a l).fifo j else 0)
    ∧ (pushNextSample (pushMany a l) s).fifoIndex = 1
    ∧ (pushNextSample (pushMany a l) s).fifo
        = Function.update (pushMany a l).fifo 0 s := by
  obtain ⟨h1, _, h3, h4⟩ := pushMany_below_capacity l a (by omega)
  rw [hr] at h1
  have h4' : (pushMany a l).fifoIndex = fftSize := by omega
  refine ⟨h1, h3, h4', ?_, ?_, ?_, ?_⟩ <;>
    simp [pushNextSample, h4', h1]

theorem ingest_publication_lazy_witness :
    (pushMany ⟨fun _ => 0, fun _ => 0, fun _ => 0, 0, false⟩
        (List.replicate fftSize 3)).nextFFTBlockReady = false
    ∧ (pushNextSample
        (pushMany ⟨fun _ => 0, fun _ => 0, fun _ => 0, 0, false⟩
          (List.replicate fftSize 3)) 5).nextFFTBlockReady = true := by
  obtain ⟨h1, _, _, h4, _, _, _⟩ :=
    ingest_publication_lazy ⟨fun _ => 0, fun _ => 0, fun _ => 0, 0, false⟩
      (List.replicate fftSize 3) 5 rfl rfl (by simp)
  exact ⟨h1, h4⟩

/-- C6: every one of the `scopeSize` curve values written by
`drawNextFrameOfSpectrum` lies in `[0, 1]`: the dB value is clamped to
`[mindB, maxdB] = [-100, 0]` and linearly remapped to `[0, 1]`. -/
theorem drawNextFrame_scope_in_unit_interval (w : ℕ → ℝ)
    (F : (ℕ → ℝ) → ℕ → ℝ) (a : FFTAnalyzer) (i : ℕ) (h : i < scopeSize) :
    0 ≤ (drawNextFrameOfSpectrum w F a).scopeData i
    ∧ (drawNextFrameOfSpectrum w F a).scopeData i ≤ 1 := by
  simp only [drawNextFrameOfSpectrum]
  rw [if_pos h]
  obtain ⟨hl, hu⟩ := jlimit_bounds mindB maxdB
    (gainToDecibels (F (windowedBuffer w a) (fftDataIndex i).toNat)
      - gainToDecibels (fftSize : ℝ)) (by norm_num [mindB, maxdB])
  set c := jlimit mindB maxdB
    (gainToDecibels (F (windowedBuffer w a) (fftDataIndex i).toNat)
      - gainToDecibels (fftSize : ℝ)) with hc
  rw [mindB] at hl
  rw [maxdB] at hu
  unfold jmap
  rw [mindB, maxdB]
  constructor
  · have : 0 ≤ (1 - 0) * (c - -100) := by linarith
    positivity
  · have h100 : (0:ℝ) + (1 - 0) * (c - -100) / (0 - -100) = (c + 100) / 100 := by
      ring
    rw [h100, div_le_one (by norm_num)]
    linarith

theorem drawNextFrame_scope_in_unit_interval_witness :
    0 ≤ (drawNextFrameOfSpectrum (fun _ => 0) id
          ⟨fun _ => 0, fun _ => 0, fun _ => 0, 0, false⟩).scopeData 0
    ∧ (drawNextFrameOfSpectrum (fun _ => 0) id
          ⟨fun _ => 0, fun _ => 0, fun _ => 0, 0, false⟩).scopeData 0 ≤ 1 :=
  drawNextFrame_scope_in_unit_interval _ _ _ 0 (by decide)

/-- For every on-curve point the skewed proportion is nonnegative. -/
theorem skewedProportionX_nonneg (i : ℕ) (h : i < scopeSize) :
    0 ≤ skewedProportionX i := by
  unfold skewedProportionX
  have hle : (i : ℝ) / (scopeSize : ℝ) ≤ 1 := by
    rw [div_le_one (by norm_num [scopeSize])]
    exact_mod_cast Nat.le_of_lt_succ (Nat.lt_succ_of_lt h)
  have hnn : (0 : ℝ) ≤ (i : ℝ) / (scopeSize : ℝ) := by positivity
  have hlog : Real.log (1 - (i : ℝ) / (scopeSize : ℝ)) ≤ 0 :=
    Real.log_nonpos (by linarith) (by linarith)
  have harg : Real.log (1 - (i : ℝ) / (scopeSize : ℝ)) * 0.2 ≤ 0 := by nlinarith
  have := Real.exp_le_one_iff.mpr harg
  linarith

/-- C1 (amended): the curve value at each point `i` is the clamped,
remapped dB magnitude at the source index
`⌊N/2 × (1 − exp (ln (1 − i/M) × 0.2))⌋` clamped to `[0, N/2]` — the C cast
truncates the skewed index toward zero (equivalently floors it, the value
being nonnegative); it does not round to nearest. -/
theorem drawNextFrame_reads_truncated_index (w : ℕ → ℝ)
    (F : (ℕ → ℝ) → ℕ → ℝ) (a : FFTAnalyzer) (i : ℕ) (h : i < scopeSize) :
    (drawNextFrameOfSpectrum w F a).scopeData i
      = jmap (jlimit mindB maxdB
          (gainToDecibels (F (windowedBuffer w a)
              (Int.toNat (jlimit 0 ((fftSize : ℤ) / 2)
                  ⌊(fftSize : ℝ) / 2 * skewedProportionX i⌋)))
            - gainToDecibels (fftSize : ℝ)))
        mindB maxdB 0 1 := by
  simp only [drawNextFrameOfSpectrum]
  rw [if_pos h]
  have hidx : fftDataIndex i
      = jlimit 0 ((fftSize : ℤ) / 2)
          ⌊(fftSize : ℝ) / 2 * skewedProportionX i⌋ := by
    unfold fftDataIndex cppTruncToInt
    have hnn : 0 ≤ skewedProportionX i * (fftSize : ℝ) * 0.5 := by
      have := skewedProportionX_nonneg i h
      positivity
    rw [if_pos hnn]
    congr 2
    ring
  rw [hidx]

theorem drawNextFrame_reads_truncated_index_witness :
    (drawNextFrameOfSpectrum (fun _ => 0) id
        ⟨fun _ => 0, fun _ => 0, fun _ => 0, 0, false⟩).scopeData 0
      = jmap (jlimit mindB maxdB
          (gainToDecibels ((id (windowedBuffer (fun _ => 0)
              ⟨fun _ => 0, fun _ => 0, fun _ => 0, 0, false⟩))
              (Int.toNat (jlimit 0 ((fftSize : ℤ) / 2)
                  ⌊(fftSize : ℝ) / 2 * skewedProportionX 0⌋)))
            - gainToDecibels (fftSize : ℝ)))
        mindB maxdB 0 1 :=
  drawNextFrame_reads_truncated_index _ _ _ 0 (by decide)

/-- C1 (counterexample): at curve point `i = 2` the code's truncated source
index is 0, while the spec's rounded formula gives 1 — the skewed value
`N/2 × (1 − exp (ln (1 − 2/512) × 0.2)) ≈ 0.80` truncates down but rounds
up. -/
theorem fftDataIndex_two_ne_spec_round :
    fftDataIndex 2 = 0 ∧ fftDataIndexSpec 2 = 1 := by
  have harg : (1 : ℝ) - (2 : ℕ) / (scopeSize : ℝ) = 255 / 256 := by
    norm_num [scopeSize]
  have hy5 : Real.exp (Real.log ((255 : ℝ) / 256) * 0.2) ^ 5
      = 255 / 256 := by
    rw [← Real.exp_nat_mul]
    rw [show ((5 : ℕ) : ℝ) * (Real.log ((255 : ℝ) / 256) * 0.2)
        = Real.log ((255 : ℝ) / 256) by push_cast; ring]
    exact Real.exp_log (by norm_num)
  set y := Real.exp (Real.log ((255 : ℝ) / 256) * 0.2) with hydef
  have hypos : 0 < y := Real.exp_pos _
  have hlow : (1023 : ℝ) / 1024 < y := by
    refine lt_of_pow_lt_pow_left₀ 5 (le_of_lt hypos) ?_
    rw [hy5]
    norm_num
  have hhigh : y < (2047 : ℝ) / 2048 := by
    refine lt_of_pow_lt_pow_left₀ 5 (by norm_num) ?_
    rw [hy5]
    norm_num
  have hskew : skewedProportionX 2 = 1 - y := by
    unfold skewedProportionX
    rw [show ((2 : ℕ) : ℝ) = (2 : ℝ) by norm_num]
    rw [show (1 : ℝ) - (2 : ℝ) / (scopeSize : ℝ) = 255 / 256 by
      norm_num [scopeSize]]
  have hxval : skewedProportionX 2 * (fftSize : ℝ) * 0.5 = (1 - y) * 1024 := by
    rw [hskew, fftSize_eq]
    push_cast
    ring
  have hxlo : (1 : ℝ) / 2 < (1 - y) * 1024 := by nlinarith
  have hxhi : (1 - y) * 1024 < 1 := by nlinarith
  constructor
  · unfold fftDataIndex cppTruncToInt
    rw [hxval, if_pos (by linarith)]
    rw [show ⌊(1 - y) * 1024⌋ = 0 from
      Int.floor_eq_zero_iff.mpr ⟨by linarith, by linarith⟩]
    rw [fftSize_eq]
    norm_num [jlimit]
  -- second conjunct: the spec's rounded index
  · unfold fftDataIndexSpec
    have hval : (fftSize : ℝ) / 2 * skewedProportionX 2 = (1 - y) * 1024 := by
      rw [hskew, fftSize_eq]
      push_cast
      ring
    rw [hval, round_eq]
    rw [show ⌊(1 - y) * 1024 + 1 / 2⌋ = 1 by
      rw [Int.floor_eq_iff]
      constructor
      · push_cast
        linarith
      · push_cast
        linarith]
    rw [fftSize_eq]
    norm_num [jlimit]

/-- C2: after `startNote`, the phase increment per sample equals
`2π × 440 × 2^((n−69)/12) / sampleRate` for every MIDI note number and
sample rate. -/
theorem startNote_angleDelta (v : SineWaveVoice) (n : ℤ)
    (velocity sampleRate : ℝ) :
    (startNote v n velocity sampleRate).angleDelta
      = 2 * Real.pi * 440 * (2 : ℝ) ^ (((n : ℝ) - 69) / 12) / sampleRate := by
  simp only [startNote, getMidiNoteInHertz]
  ring

/-- C4 (amended): `stopNote` with `allowTailOff = true` sets the tail-off
multiplier to 1.0 when none is in progress, but is a no-op while a tail-off
is already in progress (it does not silence or deactivate); only
`allowTailOff = false` immediately deactivates and zeroes the phase
increment. -/
theorem stopNote_cases (v1 v2 : SineWaveVoice) (vel : ℝ) :
    (v1.tailOff = 0 → stopNote v1 vel true = { v1 with tailOff := 1 })
    ∧ (v2.tailOff ≠ 0 → stopNote v2 vel true = v2)
    ∧ (stopNote v1 vel false = { v1 with active := false, angleDelta := 0 }) := by
  refine ⟨fun h => ?_, fun h => ?_, ?_⟩
  · simp [stopNote, h]
  · simp [stopNote, h]
  · simp [stopNote]

theorem stopNote_cases_witness :
    stopNote ⟨0, 1, 0.15, 0, true⟩ 0 true
        = { (⟨0, 1, 0.15, 0, true⟩ : SineWaveVoice) with tailOff := 1 }
    ∧ stopNote ⟨0, 1, 0.15, 0.5, true⟩ 0 true = ⟨0, 1, 0.15, 0.5, true⟩
    ∧ stopNote ⟨0, 1, 0.15, 0, true⟩ 0 false
        = { (⟨0, 1, 0.15, 0, true⟩ : SineWaveVoice) with
              active := false, angleDelta := 0 } := by
  obtain ⟨h1, h2, h3⟩ :=
    stopNote_cases ⟨0, 1, 0.15, 0, true⟩ ⟨0, 1, 0.15, 0.5, true⟩ 0
  exact ⟨h1 rfl, h2 (by norm_num), h3⟩

/-- C4 (counterexample): calling `stopNote` with `allowTailOff = true` while
a tail-off is already in progress (here `tailOff = 0.5`) leaves the voice
active with its phase increment intact — it does not "immediately silence
and deactivate" as the claim states for every case other than
starting a fresh tail-off. -/
theorem stopNote_tailOffTrue_while_decaying_is_noop :
    (stopNote ⟨0, 1, 0.15, 0.5, true⟩ 0 true).active = true
    ∧ (stopNote ⟨0, 1, 0.15, 0.5, true⟩ 0 true).angleDelta = 1 := by
  norm_num [stopNote]

/-- One unfolding step of the tail-off loop. -/
theorem renderTailLoop_succ (v : SineWaveVoice) (n : ℕ) :
    renderTailLoop v (n + 1)
      = (if (tailStep v).tailOff ≤ 0.005
         then ({ tailStep v with active := false, angleDelta := 0 },
               [Real.sin v.currentAngle * v.level * v.tailOff])
         else ((renderTailLoop (tailStep v) n).1,
               Real.sin v.currentAngle * v.level * v.tailOff
                 :: (renderTailLoop (tailStep v) n).2)) := rfl

theorem tailStep_tailOff (v : SineWaveVoice) :
    (tailStep v).tailOff = v.tailOff * 0.99 := rfl

/-- Rendering the tail-off loop while the multiplier stays above the 0.005
threshold: the multiplier decays geometrically by 0.99 per sample, the rest
of the control state is untouched, and one sample is emitted per requested
sample. -/
theorem renderTailLoop_no_crossing (K : ℕ) : ∀ v : SineWaveVoice,
    (0.005 : ℝ) < v.tailOff * 0.99 ^ K →
    (renderTailLoop v K).1.tailOff = v.tailOff * 0.99 ^ K
    ∧ (renderTailLoop v K).1.angleDelta = v.angleDelta
    ∧ (renderTailLoop v K).1.active = v.active
    ∧ (renderTailLoop v K).2.length = K := by
  induction K with
  | zero =>
    intro v _
    simp [renderTailLoop]
  | succ n ih =>
    intro v h
    have hpos : 0 < v.tailOff := by
      by_contra hc
      push_neg at hc
      have hnp : v.tailOff * 0.99 ^ (n + 1) ≤ 0 :=
        mul_nonpos_of_nonpos_of_nonneg hc (by positivity)
      linarith
    have hmono : v.tailOff * 0.99 ^ (n + 1) ≤ v.tailOff * 0.99 := by
      have hpow : (0.99 : ℝ) ^ n ≤ 1 := pow_le_one₀ (by norm_num) (by norm_num)
      have hexp : v.tailOff * 0.99 ^ (n + 1) = (v.tailOff * 0.99) * 0.99 ^ n := by
        ring
      nlinarith
    have hgt : ¬ ((tailStep v).tailOff ≤ 0.005) := by
      rw [tailStep_tailOff]
      push_neg
      linarith
    have harg : (0.005 : ℝ) < (tailStep v).tailOff * 0.99 ^ n := by
      rw [tailStep_tailOff]
      have hexp : (v.tailOff * 0.99) * 0.99 ^ n = v.tailOff * 0.99 ^ (n + 1) := by
        ring
      linarith [hexp.ge, hexp.le]
    obtain ⟨ih1, ih2, ih3, ih4⟩ := ih _ harg
    rw [renderTailLoop_succ, if_neg hgt]
    refine ⟨?_, ?_, ?_, ?_⟩
    · rw [ih1, tailStep_tailOff]
      ring
    · rw [ih2]
      rfl
    · rw [ih3]
      rfl
    · simp [ih4]

/-- Rendering the tail-off loop through the sample at which the multiplier
first falls to 0.005 or below: the loop stops there, deactivates the voice
and zeroes the phase increment, having emitted exactly `K + 1` samples. -/
theorem renderTailLoop_crossing (K : ℕ) : ∀ (v : SineWaveVoice) (M : ℕ),
    (∀ j : ℕ, j ≤ K → (0.005 : ℝ) < v.tailOff * 0.99 ^ j) →
    v.tailOff * 0.99 ^ (K + 1) ≤ 0.005 →
    K + 1 ≤ M →
    (renderTailLoop v M).1.tailOff = v.tailOff * 0.99 ^ (K + 1)
    ∧ (renderTailLoop v M).1.angleDelta = 0
    ∧ (renderTailLoop v M).1.active = false
    ∧ (renderTailLoop v M).2.length = K + 1 := by
  induction K with
  | zero =>
    intro v M hj hcross hM
    obtain ⟨m, rfl⟩ : ∃ m, M = m + 1 := ⟨M - 1, by omega⟩
    have hle : (tailStep v).tailOff ≤ 0.005 := by
      rw [tailStep_tailOff]
      calc v.tailOff * 0.99 = v.tailOff * 0.99 ^ (0 + 1) := by ring
        _ ≤ 0.005 := hcross
    rw [renderTailLoop_succ, if_pos hle]
    refine ⟨?_, rfl, rfl, rfl⟩
    show v.tailOff * 0.99 = v.tailOff * 0.99 ^ (0 + 1)
    ring
  | succ n ih =>
    intro v M hj hcross hM
    obtain ⟨m, rfl⟩ : ∃ m, M = m + 1 := ⟨M - 1, by omega⟩
    have hgt : ¬ ((tailStep v).tailOff ≤ 0.005) := by
      rw [tailStep_tailOff]
      push_neg
      have h1 := hj 1 (by omega)
      calc (0.005 : ℝ) < v.tailOff * 0.99 ^ 1 := h1
        _ = v.tailOff * 0.99 := by ring
    have hj' : ∀ j : ℕ, j ≤ n → (0.005 : ℝ) < (tailStep v).tailOff * 0.99 ^ j := by
      intro j hjn
      rw [tailStep_tailOff]
      have := hj (j + 1) (by omega)
      calc (0.005 : ℝ) < v.tailOff * 0.99 ^ (j + 1) := this
        _ = v.tailOff * 0.99 * 0.99 ^ j := by ring
    have hcross' : (tailStep v).tailOff * 0.99 ^ (n + 1) ≤ 0.005 := by
      rw [tailStep_tailOff]
      calc v.tailOff * 0.99 * 0.99 ^ (n + 1)
          = v.tailOff * 0.99 ^ (n + 1 + 1) := by ring
        _ ≤ 0.005 := hcross
    obtain ⟨ih1, ih2, ih3, ih4⟩ := ih (tailStep v) m hj' hcross' (by omega)
    rw [renderTailLoop_succ, if_neg hgt]
    refine ⟨?_, ih2, ih3, ?_⟩
    · rw [ih1, tailStep_tailOff]
      ring
    · simp [ih4]

/-- A voice whose phase increment is zero contributes nothing to the
buffer and is left unchanged by `renderNextBlock`. -/
theorem renderNextBlock_zero_delta (u : SineWaveVoice) (h : u.angleDelta = 0)
    (L : ℕ) : renderNextBlock u L = (u, []) := by
  simp [renderNextBlock, h]

/-- C3: after `stopNote` with tail-off allowed (from a sustaining voice),
rendering `K` samples leaves the tail-off multiplier at `0.99 ^ K` for as
long as `0.99 ^ K > 0.005`; at the first sample where the multiplier falls
to 0.005 or below, the voice is deactivated and its phase increment zeroed
(rendering stops there even if more samples were requested), and every
subsequent `renderNextBlock` call adds nothing to the output buffer. -/
theorem renderNextBlock_tailoff_decay (v : SineWaveVoice) (vel : ℝ)
    (h0 : v.tailOff = 0) (hd : v.angleDelta ≠ 0) (ha : v.active = true)
    (K : ℕ) :
    ((0.005 : ℝ) < 0.99 ^ K →
      (renderNextBlock (stopNote v vel true) K).1.tailOff = 0.99 ^ K
      ∧ (renderNextBlock (stopNote v vel true) K).1.active = true
      ∧ (renderNextBlock (stopNote v vel true) K).1.angleDelta = v.angleDelta
      ∧ (renderNextBlock (stopNote v vel true) K).2.length = K)
    ∧ (∀ M : ℕ, (0.99 : ℝ) ^ K ≤ 0.005 → (0.005 : ℝ) < 0.99 ^ (K - 1) →
        K ≤ M →
        (renderNextBlock (stopNote v vel true) M).1.active = false
        ∧ (renderNextBlock (stopNote v vel true) M).1.angleDelta = 0
        ∧ (renderNextBlock (stopNote v vel true) M).1.tailOff = 0.99 ^ K
        ∧ (renderNextBlock (stopNote v vel true) M).2.length = K
        ∧ ∀ L : ℕ,
            renderNextBlock (renderNextBlock (stopNote v vel true) M).1 L
              = ((renderNextBlock (stopNote v vel true) M).1, [])) := by
  have hstop : stopNote v vel true = { v with tailOff := 1 } := by
    simp [stopNote, h0]
  have hrnb : ∀ n : ℕ,
      renderNextBlock (stopNote v vel true) n
        = renderTailLoop { v with tailOff := 1 } n := by
    intro n
    rw [hstop]
    have hd' : ¬ (({ v with tailOff := 1 } : SineWaveVoice).angleDelta = 0) := hd
    simp [renderNextBlock, hd']
  constructor
  · intro hK
    have harg : (0.005 : ℝ)
        < ({ v with tailOff := 1 } : SineWaveVoice).tailOff * 0.99 ^ K := by
      show (0.005 : ℝ) < 1 * 0.99 ^ K
      linarith [hK]
    obtain ⟨c1, c2, c3, c4⟩ := renderTailLoop_no_crossing K _ harg
    rw [hrnb K]
    refine ⟨?_, ?_, c2, c4⟩
    · rw [c1]
      show (1 : ℝ) * 0.99 ^ K = 0.99 ^ K
      ring
    · rw [c3]
      exact ha
  · intro M hcross hprev hM
    obtain ⟨n, rfl⟩ : ∃ n, K = n + 1 := by
      cases K with
      | zero => exfalso; norm_num at hcross
      | succ n => exact ⟨n, rfl⟩
    have hprev' : (0.005 : ℝ) < 0.99 ^ n := by
      simpa using hprev
    have hj : ∀ j : ℕ, j ≤ n →
        (0.005 : ℝ) < ({ v with tailOff := 1 } : SineWaveVoice).tailOff * 0.99 ^ j := by
      intro j hjn
      show (0.005 : ℝ) < 1 * 0.99 ^ j
      have hmono : (0.99 : ℝ) ^ n ≤ 0.99 ^ j :=
        pow_le_pow_of_le_one (by norm_num) (by norm_num) hjn
      nlinarith
    have hcross' :
        ({ v with tailOff := 1 } : SineWaveVoice).tailOff * 0.99 ^ (n + 1) ≤ 0.005 := by
      show (1 : ℝ) * 0.99 ^ (n + 1) ≤ 0.005
      linarith [hcross]
    obtain ⟨c1, c2, c3, c4⟩ := renderTailLoop_crossing n _ M hj hcross' hM
    have hstate1 : (renderNextBlock (stopNote v vel true) M).1.tailOff
        = 0.99 ^ (n + 1) := by
      rw [hrnb M, c1]
      show (1 : ℝ) * 0.99 ^ (n + 1) = 0.99 ^ (n + 1)
      ring
    have hstate2 : (renderNextBlock (stopNote v vel true) M).1.angleDelta = 0 := by
      rw [hrnb M]
      exact c2
    have hstate3 : (renderNextBlock (stopNote v vel true) M).1.active = false := by
      rw [hrnb M]
      exact c3
    have hstate4 : (renderNextBlock (stopNote v vel true) M).2.length = n + 1 := by
      rw [hrnb M]
      exact c4
    refine ⟨hstate3, hstate2, hstate1, hstate4, ?_⟩
    intro L
    exact renderNextBlock_zero_delta _ hstate2 L

theorem renderNextBlock_tailoff_decay_witness :
    ((0.005 : ℝ) < 0.99 ^ 100
      ∧ (renderNextBlock (stopNote ⟨0, 1, 0.15, 0, true⟩ 0 true) 100).1.tailOff
          = 0.99 ^ 100)
    ∧ ((0.99 : ℝ) ^ 528 ≤ 0.005
      ∧ (renderNextBlock (stopNote ⟨0, 1, 0.15, 0, true⟩ 0 true) 528).1.active
          = false
      ∧ (renderNextBlock (stopNote ⟨0, 1, 0.15, 0, true⟩ 0 true) 528).1.angleDelta
          = 0) := by
  have h1 : (0.005 : ℝ) < 0.99 ^ 100 := by norm_num
  have h2 : (0.99 : ℝ) ^ 528 ≤ 0.005 := by norm_num
  have h3 : (0.005 : ℝ) < 0.99 ^ (528 - 1) := by norm_num
  refine ⟨⟨h1, ?_⟩, h2, ?_, ?_⟩
  · exact ((renderNextBlock_tailoff_decay ⟨0, 1, 0.15, 0, true⟩ 0 rfl
      (by norm_num) rfl 100).1 h1).1
  · exact ((renderNextBlock_tailoff_decay ⟨0, 1, 0.15, 0, true⟩ 0 rfl
      (by norm_num) rfl 528).2 528 h2 h3 (le_refl _)).1
  · exact ((renderNextBlock_tailoff_decay ⟨0, 1, 0.15, 0, true⟩ 0 rfl
      (by norm_num) rfl 528).2 528 h2 h3 (le_refl _)).2.1

/-- The accumulating channel fold equals the sum over the non-null
channels. -/
theorem mixSample_eq_sum (l : List (Option (ℕ → ℝ))) (i : ℕ) :
    mixSample l i = ((l.filterMap id).map fun c => c i).sum := by
  suffices h : ∀ init : ℝ,
      l.foldl (fun acc ch => match ch with | none => acc | some c => acc + c i)
          init
        = init + ((l.filterMap id).map fun c => c i).sum by
    simpa [mixSample] using h 0
  induction l with
  | nil =>
    intro init
    simp
  | cons ch t ih =>
    intro init
    cases ch with
    | none =>
      simp [List.foldl_cons, ih init, List.filterMap_cons]
    | some c =>
      simp only [List.foldl_cons, List.filterMap_cons, id]
      rw [ih (init + c i)]
      simp [List.map_cons, List.sum_cons]
      ring

/-- C10: the custom live-display callback zeroes every non-null output
channel over the full sample count (no audio pass-through), and the value
pushed to the display at each sample index is the sum of that index's
samples over all non-null input channels, multiplied by the gain field. -/
theorem customDisplay_callback_spec (gain : ℝ)
    (input output : List (Option (ℕ → ℝ))) (numSamples : ℕ) :
    (∀ ch ∈ (audioDeviceIOCallbackWithContext gain input output
        numSamples).output,
      ∀ f, ch = some f → ∀ j, j < numSamples → f j = 0)
    ∧ (∀ i, i < numSamples →
        (audioDeviceIOCallbackWithContext gain input output
            numSamples).pushed.get? i
          = some ((((input.filterMap id).map fun c => c i).sum) * gain)) := by
  constructor
  · intro ch hch f hf j hj
    simp only [audioDeviceIOCallbackWithContext, List.mem_map] at hch
    obtain ⟨ch0, _, rfl⟩ := hch
    cases ch0 with
    | none => exact Option.noConfusion hf
    | some g =>
      have hf' : (fun j => if j < numSamples then (0 : ℝ) else g j) = f :=
        Option.some.inj hf
      subst hf'
      simp [hj]
  · intro i hi
    have h1 : (audioDeviceIOCallbackWithContext gain input output
          numSamples).pushed.get? i
        = some (mixSample input i * gain) := by
      show ((List.range numSamples).map fun k => mixSample input k * gain).get? i
          = some (mixSample input i * gain)
      rw [List.get?_map, List.get?_range hi]
      rfl
    rw [h1, mixSample_eq_sum]

theorem customDisplay_callback_spec_witness :
    (fun j => if j < 1 then (0 : ℝ) else 5) 0 = 0
    ∧ (audioDeviceIOCallbackWithContext 2 [some fun _ => 3, none]
        [some fun _ => 5] 1).pushed.get? 0 = some 6 := by
  have h := customDisplay_callback_spec 2 [some fun _ => 3, none]
    [some fun _ => 5] 1
  constructor
  · exact h.1 (some fun j => if j < 1 then (0 : ℝ) else 5)
      (by simp [audioDeviceIOCallbackWithContext]) _ rfl 0 (by decide)
  · have h2 := h.2 0 (by decide)
    rw [h2]
    simp [List.filterMap_cons]
    norm_num
